import Mathlib

set_option linter.unnecessarySeqFocus false

/-!
Verification of the dependency-version analyzer and the managed registry
index of deps.rs (src/engine/machines/analyzer.rs and src/utils/index.rs),
as a shallow embedding in Lean 4.

External collaborators are abstracted exactly as the specification directs:
the semantic-version type is any linearly ordered type with a prerelease
predicate, a version constraint is its matching predicate, the advisory
database is its query function, and the fallible rustsec/cargo-lock parses
are Option-valued functions.  The BTreeMap kind-mappings are embedded as
association lists.  A panic (unwrap on a malformed name or version) is
embedded as an Option-valued result, with none meaning the fatal abort.
-/

namespace DepsRs

/-- Interface of the semver Version collaborator: a linear order
(semantic-versioning precedence) together with the is_prerelease test. -/
class SemverVersion (V : Type) extends LinearOrder V where
  isPrerelease : V → Bool

export SemverVersion (isPrerelease)

/-- Modelled from the spec: an Analyzed Dependency is the accumulator
struct of models/crates.rs (not shipped under src/): the required
constraint, the two optional maxima and the vulnerability list.  The
constraint is embedded by its matches predicate. -/
@[ext]
structure AnalyzedDependency (V Vuln : Type) where
  required : V → Bool
  latest_that_matches : Option V
  latest : Option V
  vulnerabilities : List Vuln

/-- Modelled from the spec: a fresh accumulator entry, constraint copied
and all optional fields empty. -/
def AnalyzedDependency.new (required : V → Bool) : AnalyzedDependency V Vuln :=
  ⟨required, none, none, []⟩

/-- Modelled from the spec: the Declared Dependencies, three independent
kind-mappings from name to constraint (CrateDeps of models/crates.rs). -/
structure CrateDeps (Name V : Type) where
  main : List (Name × (V → Bool))
  dev : List (Name × (V → Bool))
  build : List (Name × (V → Bool))

/-- Modelled from the spec: a Release fact (CrateRelease of
models/crates.rs): name, version, its own sub-dependencies, yanked flag. -/
structure CrateRelease (Name V : Type) where
  name : Name
  version : V
  deps : CrateDeps Name V
  yanked : Bool

/-- Modelled from the spec: the three kind-mappings of accumulators
(AnalyzedDependencies of models/crates.rs), embedded as association
lists standing for the BTreeMaps. -/
@[ext]
structure AnalyzedDependencies (Name V Vuln : Type) where
  main : List (Name × AnalyzedDependency V Vuln)
  dev : List (Name × AnalyzedDependency V Vuln)
  build : List (Name × AnalyzedDependency V Vuln)

/-- Modelled from the spec: construction seeds one accumulator per
declared dependency, per kind. -/
def AnalyzedDependencies.new (deps : CrateDeps Name V) :
    AnalyzedDependencies Name V Vuln :=
  ⟨deps.main.map (fun p => (p.1, AnalyzedDependency.new p.2)),
   deps.dev.map (fun p => (p.1, AnalyzedDependency.new p.2)),
   deps.build.map (fun p => (p.1, AnalyzedDependency.new p.2))⟩

/-- Association-list lookup, the embedding of BTreeMap::get. -/
def alookup [DecidableEq Name] (nm : Name) : List (Name × α) → Option α
  | [] => none
  | p :: ps => if p.1 = nm then some p.2 else alookup nm ps

/-- Selector for the three kind-mappings, used to quantify over them. -/
inductive DependencyKind : Type
  | main
  | dev
  | build

/-- The kind-mapping of an AnalyzedDependencies selected by kind. -/
def kindMap : DependencyKind → AnalyzedDependencies Name V Vuln →
    List (Name × AnalyzedDependency V Vuln)
  | DependencyKind.main, a => a.main
  | DependencyKind.dev, a => a.dev
  | DependencyKind.build, a => a.build

/-- The declared kind-mapping of a CrateDeps selected by kind. -/
def kindDeps : DependencyKind → CrateDeps Name V → List (Name × (V → Bool))
  | DependencyKind.main, d => d.main
  | DependencyKind.dev, d => d.dev
  | DependencyKind.build, d => d.build

/-- DependencyAnalyzer::process_single of analyzer.rs.  The source also
receives the (unused) dependency name; it is dropped here.  Part (a):
if the version matches the required constraint, raise latest_that_matches;
part (b): if it is not a prerelease, raise latest. -/
def process_single [SemverVersion V] (dep : AnalyzedDependency V Vuln)
    (ver : V) : AnalyzedDependency V Vuln :=
  let dep1 :=
    if dep.required ver then
      match dep.latest_that_matches with
      | some current_latest_that_matches =>
        if current_latest_that_matches < ver then
          { dep with latest_that_matches := some ver }
        else dep
      | none => { dep with latest_that_matches := some ver }
    else dep
  if !isPrerelease ver then
    match dep1.latest with
    | some current_latest =>
      if current_latest < ver then { dep1 with latest := some ver } else dep1
    | none => { dep1 with latest := some ver }
  else dep1

/-- The body of the loop of DependencyAnalyzer::process for one release:
each of the three kind-mappings is updated at the release's name (if
tracked there) via process_single.  The in-place get_mut update of the
BTreeMap is embedded as a map over the association list. -/
def updateAt [DecidableEq Name] [SemverVersion V]
    (m : List (Name × AnalyzedDependency V Vuln)) (nm : Name) (ver : V) :
    List (Name × AnalyzedDependency V Vuln) :=
  m.map (fun p => if p.1 = nm then (p.1, process_single p.2 ver) else p)

/-- One iteration of the loop of DependencyAnalyzer::process (the release
has already passed the yanked filter). -/
def processRelease [DecidableEq Name] [SemverVersion V]
    (a : AnalyzedDependencies Name V Vuln) (r : CrateRelease Name V) :
    AnalyzedDependencies Name V Vuln :=
  ⟨updateAt a.main r.name r.version,
   updateAt a.dev r.name r.version,
   updateAt a.build r.name r.version⟩

/-- DependencyAnalyzer::process on the deps state: filter out yanked
releases, then fold the per-release update over the stream in order. -/
def processReleases [DecidableEq Name] [SemverVersion V]
    (a : AnalyzedDependencies Name V Vuln) (rs : List (CrateRelease Name V)) :
    AnalyzedDependencies Name V Vuln :=
  (rs.filter (fun r => !r.yanked)).foldl processRelease a

/-- The analyzer state of analyzer.rs: the accumulators plus the optional
advisory database, the latter embedded by its query function from parsed
(name, version) to the vulnerability list. -/
structure DependencyAnalyzer (Name V LockName LockVersion Vuln : Type) where
  deps : AnalyzedDependencies Name V Vuln
  advisory_db : Option (LockName → LockVersion → List Vuln)

/-- DependencyAnalyzer::new. -/
def DependencyAnalyzer.new (deps : CrateDeps Name V)
    (advisory_db : Option (LockName → LockVersion → List Vuln)) :
    DependencyAnalyzer Name V LockName LockVersion Vuln :=
  ⟨AnalyzedDependencies.new deps, advisory_db⟩

/-- DependencyAnalyzer::process (one Ingest call). -/
def DependencyAnalyzer.process [DecidableEq Name] [SemverVersion V]
    (an : DependencyAnalyzer Name V LockName LockVersion Vuln)
    (releases : List (CrateRelease Name V)) :
    DependencyAnalyzer Name V LockName LockVersion Vuln :=
  { an with deps := processReleases an.deps releases }

/-- A sequence of Ingest calls with the given chunking of the stream. -/
def DependencyAnalyzer.processChunks [DecidableEq Name] [SemverVersion V]
    (an : DependencyAnalyzer Name V LockName LockVersion Vuln)
    (chunks : List (List (CrateRelease Name V))) :
    DependencyAnalyzer Name V LockName LockVersion Vuln :=
  chunks.foldl DependencyAnalyzer.process an

/-- The body of the loop of DependencyAnalyzer::process_advisory for one
tracked dependency.  A dependency without latest_that_matches is skipped
by the filter_map of the source.  Otherwise the name and the version are
parsed first (the unwraps of the source: a failed parse is the fatal
abort, embedded as none), and only then, if a database is present, it is
queried; a non-empty result replaces the vulnerabilities. -/
def advisory_one (db : Option (LockName → LockVersion → List Vuln))
    (parseName : Name → Option LockName) (parseVersion : V → Option LockVersion)
    (nm : Name) (dep : AnalyzedDependency V Vuln) :
    Option (AnalyzedDependency V Vuln) :=
  match dep.latest_that_matches with
  | none => some dep
  | some version =>
    match parseName nm with
    | none => none
    | some lockName =>
      match parseVersion version with
      | none => none
      | some lockVersion =>
        some (match db with
          | some query =>
            let vulnerabilities := query lockName lockVersion
            if vulnerabilities.isEmpty then dep
            else { dep with vulnerabilities := vulnerabilities }
          | none => dep)

/-- The loop of DependencyAnalyzer::process_advisory over one
kind-mapping, aborting (none) at the first failed parse. -/
def advisory_map (db : Option (LockName → LockVersion → List Vuln))
    (parseName : Name → Option LockName) (parseVersion : V → Option LockVersion) :
    List (Name × AnalyzedDependency V Vuln) →
    Option (List (Name × AnalyzedDependency V Vuln))
  | [] => some []
  | p :: ps =>
    match advisory_one db parseName parseVersion p.1 p.2 with
    | none => none
    | some d =>
      match advisory_map db parseName parseVersion ps with
      | none => none
      | some rest => some ((p.1, d) :: rest)

/-- DependencyAnalyzer::process_advisory: the source chains the three
kind-mappings into one iteration; the result state on success and the
presence of an abort are the same when the three are traversed one after
the other. -/
def DependencyAnalyzer.process_advisory
    (parseName : Name → Option LockName) (parseVersion : V → Option LockVersion)
    (an : DependencyAnalyzer Name V LockName LockVersion Vuln) :
    Option (DependencyAnalyzer Name V LockName LockVersion Vuln) :=
  match advisory_map an.advisory_db parseName parseVersion an.deps.main,
        advisory_map an.advisory_db parseName parseVersion an.deps.dev,
        advisory_map an.advisory_db parseName parseVersion an.deps.build with
  | some m, some d, some b => some { an with deps := ⟨m, d, b⟩ }
  | _, _, _ => none

/-- DependencyAnalyzer::finalize: run process_advisory, return the frozen
accumulators (none standing for the fatal abort of a failed parse). -/
def DependencyAnalyzer.finalize
    (parseName : Name → Option LockName) (parseVersion : V → Option LockVersion)
    (an : DependencyAnalyzer Name V LockName LockVersion Vuln) :
    Option (AnalyzedDependencies Name V Vuln) :=
  (DependencyAnalyzer.process_advisory parseName parseVersion an).map
    (fun an' => an'.deps)

/-- The raise-to-candidate step shared by both maxima of process_single,
on an optional current value. -/
def omax [LinearOrder V] (a : Option V) (v : V) : Option V :=
  match a with
  | some current => if current < v then some v else some current
  | none => some v

/-- The maximum of a list of versions, none for the empty list: the value
the spec calls "the maximum version among all …". -/
def maxOf [LinearOrder V] (l : List V) : Option V :=
  l.foldl omax none

/-- The versions relevant to one tracked name in a release stream: the
versions of its non-yanked releases, in stream order. -/
def relevantVersions [DecidableEq Name] (nm : Name)
    (rs : List (CrateRelease Name V)) : List V :=
  (rs.filter (fun r => !r.yanked && decide (r.name = nm))).map
    (fun r => r.version)

/-- The first half of the body of process_single (the latest_that_matches
update), split out for proofs; process_single is definitionally latStep
after ltmStep. -/
def ltmStep [SemverVersion V] (dep : AnalyzedDependency V Vuln) (ver : V) :
    AnalyzedDependency V Vuln :=
  if dep.required ver then
    match dep.latest_that_matches with
    | some current_latest_that_matches =>
      if current_latest_that_matches < ver then
        { dep with latest_that_matches := some ver }
      else dep
    | none => { dep with latest_that_matches := some ver }
  else dep

/-- The second half of the body of process_single (the latest update). -/
def latStep [SemverVersion V] (dep1 : AnalyzedDependency V Vuln) (ver : V) :
    AnalyzedDependency V Vuln :=
  if !isPrerelease ver then
    match dep1.latest with
    | some current_latest =>
      if current_latest < ver then { dep1 with latest := some ver } else dep1
    | none => { dep1 with latest := some ver }
  else dep1

/-- The managed registry index of utils/index.rs: the handle to the local
index snapshot (Index is the opaque collaborator type cloned by the index
method) and the armed interval period.  Time is discrete (natural-number
instants). -/
structure ManagedIndex (Index : Type) where
  index : Index
  update_interval : ℕ

/-- ManagedIndex::new: store the externally opened index handle and arm
the timer with the given period. -/
def ManagedIndex.new (index : Index) (update_interval : ℕ) :
    ManagedIndex Index :=
  ⟨index, update_interval⟩

/-- ManagedIndex::refresh: clone the handle, offload the blocking
retrieve_or_update, and discard its outcome (the source binds the awaited
result to an underscore).  The outcome of the external operation is an
explicit parameter; the managed state is untouched and the return carries
no error value. -/
def ManagedIndex.refresh (m : ManagedIndex Index)
    (outcome : Except Err Unit) : ManagedIndex Index × Unit :=
  let index := m.index
  let result : Except Err Unit := outcome
  let _ := index
  let _ := result
  (m, ())

/-- The managed state after n completed loop iterations of
ManagedIndex::refresh_at_interval, the n-th refresh observing the n-th
external outcome: each iteration threads the state through refresh. -/
def ManagedIndex.loopState (m : ManagedIndex Index)
    (outcomes : ℕ → Except Err Unit) : ℕ → ManagedIndex Index
  | 0 => m
  | n + 1 =>
    (ManagedIndex.refresh (ManagedIndex.loopState m outcomes n)
      (outcomes n)).1

/-- Modelled from the spec: the periodic timer collaborator (tokio
interval) armed at time 0 with period T; the k-th tick await completes at
the deadline of the next tick, (k + 1) * T, or immediately when that
moment has already passed. -/
def tickComplete (T k now : ℕ) : ℕ := max now ((k + 1) * T)

/-- Start time of the k-th refresh of refresh_at_interval: refresh 0
starts immediately; refresh k + 1 starts when the k-th tick await
completes, and that await is entered only after refresh k (of duration
dur k) has completed — the loop body is strictly sequential. -/
def refreshStart (T : ℕ) (dur : ℕ → ℕ) : ℕ → ℕ
  | 0 => 0
  | k + 1 => tickComplete T k (refreshStart T dur k + dur k)

/-- Completion time of the k-th refresh. -/
def refreshEnd (T : ℕ) (dur : ℕ → ℕ) (k : ℕ) : ℕ :=
  refreshStart T dur k + dur k

/-- Concrete version type for witnesses: naturals, odd numbers playing
the prereleases. -/
instance instSemverVersionNat : SemverVersion Nat :=
  { (inferInstance : LinearOrder Nat) with
    isPrerelease := fun n => decide (n % 2 = 1) }

/-- Witness fixture: a constraint accepting versions up to 10. -/
def wReq : Nat → Bool := fun v => decide (v ≤ 10)

/-- Witness fixture: one declared main dependency. -/
def wDeps : CrateDeps String Nat := ⟨[("hyper", wReq)], [], []⟩

/-- Witness fixture: a release of the tracked name. -/
def wRel (v : Nat) (y : Bool) : CrateRelease String Nat :=
  ⟨"hyper", v, ⟨[], [], []⟩, y⟩

/-- Witness fixture: two Ingest chunks — a matching non-prerelease
version 4, a non-matching version 20, a matching prerelease 3 and a
yanked version 6. -/
def wChunks : List (List (CrateRelease String Nat)) :=
  [[wRel 4 false, wRel 20 false], [wRel 3 false, wRel 6 true]]

/-- Witness fixture: the accumulator expected for the tracked name after
the two chunks. -/
def wDep : AnalyzedDependency Nat Nat :=
  ⟨wReq, some 4, some 20, []⟩

/-- Witness fixture: no advisory database. -/
def wDb : Option (String → Nat → List Nat) := none

/-- Witness fixture: an advisory database with one advisory for the
tracked name at version 4. -/
def wDbSome : Option (String → Nat → List Nat) :=
  some (fun ln lv => if ln = "hyper" ∧ lv = 4 then [7] else [])

/-- Witness fixture: name parse that always succeeds (identity). -/
def wParseName : String → Option String := fun nm => some nm

/-- Witness fixture: version parse that always succeeds (identity). -/
def wParseVersion : Nat → Option Nat := fun v => some v

/-- Witness fixture: name parse that always fails (every name
malformed). -/
def wParseNameBad : String → Option String := fun _ => none

/-- Witness fixture: an analyzer state with one tracked main dependency
whose latest_that_matches is set, paired with the advisory database. -/
def wAnalyzer (db : Option (String → Nat → List Nat)) :
    DependencyAnalyzer String Nat String Nat Nat :=
  ⟨⟨[("hyper", wDep)], [], []⟩, db⟩

/-- Witness fixture: the accumulators expected from finalizing wAnalyzer
wDbSome: the advisory [7] attached to the tracked dependency. -/
def wOut : AnalyzedDependencies String Nat Nat :=
  ⟨[("hyper", ⟨wReq, some 4, some 20, [7]⟩)], [], []⟩

end DepsRs

namespace DepsRs

/-! ## Characterization of process_single and its folds -/

theorem process_single_eq_steps [SemverVersion V]
    (d : AnalyzedDependency V Vuln) (v : V) :
    process_single d v = latStep (ltmStep d v) v := rfl

theorem ltmStep_eq [SemverVersion V] (d : AnalyzedDependency V Vuln) (v : V) :
    ltmStep d v =
      ⟨d.required,
       if d.required v then omax d.latest_that_matches v
       else d.latest_that_matches,
       d.latest, d.vulnerabilities⟩ := by
  rcases d with ⟨req, ltm, lat, vul⟩
  by_cases hr : req v <;> cases ltm <;> simp [ltmStep, omax, hr] <;>
    (try split) <;> simp

theorem latStep_eq [SemverVersion V] (d : AnalyzedDependency V Vuln) (v : V) :
    latStep d v =
      ⟨d.required, d.latest_that_matches,
       if !isPrerelease v then omax d.latest v else d.latest,
       d.vulnerabilities⟩ := by
  rcases d with ⟨req, ltm, lat, vul⟩
  by_cases hp : isPrerelease v <;> cases lat <;> simp [latStep, omax, hp] <;>
    (try split) <;> simp

theorem process_single_eq [SemverVersion V]
    (d : AnalyzedDependency V Vuln) (v : V) :
    process_single d v =
      ⟨d.required,
       if d.required v then omax d.latest_that_matches v
       else d.latest_that_matches,
       if !isPrerelease v then omax d.latest v else d.latest,
       d.vulnerabilities⟩ := by
  rw [process_single_eq_steps, ltmStep_eq, latStep_eq]

theorem omax_some [LinearOrder V] (m v : V) :
    omax (some m) v = some (max m v) := by
  rcases le_or_lt v m with h | h
  · simp [omax, not_lt.mpr h, max_eq_left h]
  · simp [omax, h, max_eq_right h.le]

theorem foldl_omax_some [LinearOrder V] (l : List V) :
    ∀ x : V, l.foldl omax (some x) = some (l.foldl max x) := by
  induction l with
  | nil => intro x; rfl
  | cons v t ih => intro x; simp only [List.foldl_cons, omax_some, ih]

theorem le_foldl_max [LinearOrder V] (l : List V) :
    ∀ x : V, x ≤ l.foldl max x := by
  induction l with
  | nil => intro x; exact le_refl x
  | cons v t ih => intro x; exact le_trans (le_max_left x v) (ih (max x v))

theorem mem_le_foldl_max [LinearOrder V] {l : List V} {v : V} (hv : v ∈ l) :
    ∀ x : V, v ≤ l.foldl max x := by
  induction l with
  | nil => cases hv
  | cons w t ih =>
    intro x
    rcases List.mem_cons.mp hv with h | h
    · subst h
      exact le_trans (le_max_right x v) (le_foldl_max t (max x v))
    · exact ih h (max x w)

theorem foldl_omax_mem [LinearOrder V] {l : List V} {v : V} (hv : v ∈ l) :
    ∀ a : Option V, ∃ m, l.foldl omax a = some m ∧ v ≤ m := by
  intro a
  match a with
  | some x =>
    exact ⟨l.foldl max x, foldl_omax_some l x, mem_le_foldl_max hv x⟩
  | none =>
    match l, hv with
    | w :: t, hv =>
      refine ⟨t.foldl max w, ?_, ?_⟩
      · simp only [List.foldl_cons, omax, foldl_omax_some]
      · rcases List.mem_cons.mp hv with h | h
        · subst h; exact le_foldl_max t v
        · exact mem_le_foldl_max h w

theorem foldl_omax_init [LinearOrder V] (l : List V) (x : V) :
    ∃ m, l.foldl omax (some x) = some m ∧ x ≤ m :=
  ⟨l.foldl max x, foldl_omax_some l x, le_foldl_max l x⟩

theorem omax_right_comm [LinearOrder V] (a : Option V) (u v : V) :
    omax (omax a u) v = omax (omax a v) u := by
  cases a with
  | none =>
    have h1 : omax (none : Option V) u = some u := rfl
    have h2 : omax (none : Option V) v = some v := rfl
    rw [h1, h2, omax_some, omax_some, max_comm]
  | some m => rw [omax_some, omax_some, omax_some, omax_some, sup_right_comm]

theorem foldl_omax_perm [LinearOrder V] {l₁ l₂ : List V} (hp : l₁.Perm l₂) :
    ∀ a : Option V, l₁.foldl omax a = l₂.foldl omax a := by
  induction hp with
  | nil => intro a; rfl
  | cons v _ ih => intro a; simp only [List.foldl_cons, ih]
  | swap u v t => intro a; simp only [List.foldl_cons, omax_right_comm]
  | trans _ _ ih₁ ih₂ => intro a; exact (ih₁ a).trans (ih₂ a)

theorem maxOf_perm [LinearOrder V] {l₁ l₂ : List V} (hp : l₁.Perm l₂) :
    maxOf l₁ = maxOf l₂ :=
  foldl_omax_perm hp none

theorem foldl_process_single_required [SemverVersion V]
    (vs : List V) : ∀ d : AnalyzedDependency V Vuln,
    (vs.foldl process_single d).required = d.required := by
  induction vs with
  | nil => intro d; rfl
  | cons v t ih => intro d; simp only [List.foldl_cons, ih, process_single_eq]

theorem foldl_process_single_vulns [SemverVersion V]
    (vs : List V) : ∀ d : AnalyzedDependency V Vuln,
    (vs.foldl process_single d).vulnerabilities = d.vulnerabilities := by
  induction vs with
  | nil => intro d; rfl
  | cons v t ih => intro d; simp only [List.foldl_cons, ih, process_single_eq]

theorem foldl_process_single_ltm [SemverVersion V]
    (vs : List V) : ∀ d : AnalyzedDependency V Vuln,
    (vs.foldl process_single d).latest_that_matches =
      (vs.filter d.required).foldl omax d.latest_that_matches := by
  induction vs with
  | nil => intro d; rfl
  | cons v t ih =>
    intro d
    simp only [List.foldl_cons, List.filter_cons, ih, process_single_eq]
    by_cases hr : d.required v <;> simp [hr]

theorem foldl_process_single_latest [SemverVersion V]
    (vs : List V) : ∀ d : AnalyzedDependency V Vuln,
    (vs.foldl process_single d).latest =
      (vs.filter (fun v => !isPrerelease v)).foldl omax d.latest := by
  induction vs with
  | nil => intro d; rfl
  | cons v t ih =>
    intro d
    simp only [List.foldl_cons, List.filter_cons, ih, process_single_eq]
    by_cases hp : isPrerelease v <;> simp [hp]

theorem process_single_noop [SemverVersion V]
    (d : AnalyzedDependency V Vuln) (v : V)
    (h1 : d.required v = true → ∃ m, d.latest_that_matches = some m ∧ ¬ m < v)
    (h2 : isPrerelease v = false → ∃ m, d.latest = some m ∧ ¬ m < v) :
    process_single d v = d := by
  rw [process_single_eq]
  have e1 : (if d.required v then omax d.latest_that_matches v
      else d.latest_that_matches) = d.latest_that_matches := by
    by_cases hr : d.required v
    · obtain ⟨m, hm, hlt⟩ := h1 hr
      simp [hr, hm, omax, hlt]
    · simp [hr]
  have e2 : (if !isPrerelease v then omax d.latest v else d.latest)
      = d.latest := by
    by_cases hp : isPrerelease v
    · simp [hp]
    · obtain ⟨m, hm, hlt⟩ := h2 (by simp [hp])
      simp [hp, hm, omax, hlt]
  rw [e1, e2]

theorem foldl_process_single_noop [SemverVersion V] (vs : List V) :
    ∀ d : AnalyzedDependency V Vuln,
    (∀ v ∈ vs,
      (d.required v = true → ∃ m, d.latest_that_matches = some m ∧ ¬ m < v) ∧
      (isPrerelease v = false → ∃ m, d.latest = some m ∧ ¬ m < v)) →
    vs.foldl process_single d = d := by
  induction vs with
  | nil => intro d _; rfl
  | cons v t ih =>
    intro d h
    have hd := h v (List.mem_cons_self v t)
    rw [List.foldl_cons, process_single_noop d v hd.1 hd.2]
    exact ih d (fun w hw => h w (List.mem_cons_of_mem v hw))

theorem foldl_process_single_idem [SemverVersion V] (vs : List V)
    (d : AnalyzedDependency V Vuln) :
    vs.foldl process_single (vs.foldl process_single d)
      = vs.foldl process_single d := by
  apply foldl_process_single_noop
  intro v hv
  constructor
  · intro hr
    rw [foldl_process_single_required] at hr
    rw [foldl_process_single_ltm]
    have hv' : v ∈ vs.filter d.required := List.mem_filter.mpr ⟨hv, hr⟩
    obtain ⟨m, hm, hle⟩ := foldl_omax_mem hv' d.latest_that_matches
    exact ⟨m, hm, not_lt.mpr hle⟩
  · intro hp
    rw [foldl_process_single_latest]
    have hv' : v ∈ vs.filter (fun v => !isPrerelease v) :=
      List.mem_filter.mpr ⟨hv, by simp [hp]⟩
    obtain ⟨m, hm, hle⟩ := foldl_omax_mem hv' d.latest
    exact ⟨m, hm, not_lt.mpr hle⟩

end DepsRs

namespace DepsRs

/-! ## Lookup in the kind-mappings through process -/

theorem alookup_map_entry [DecidableEq Name] (f : Name → β → γ)
    (m : List (Name × β)) (nm : Name) :
    alookup nm (m.map (fun p => (p.1, f p.1 p.2)))
      = (alookup nm m).map (f nm) := by
  induction m with
  | nil => rfl
  | cons p ps ih =>
    by_cases h : p.1 = nm
    · subst h
      simp [alookup]
    · simp [alookup, h, ih]

theorem kindMap_processRelease [DecidableEq Name] [SemverVersion V]
    (a : AnalyzedDependencies Name V Vuln) (r : CrateRelease Name V)
    (k : DependencyKind) :
    kindMap k (processRelease a r) = updateAt (kindMap k a) r.name r.version := by
  cases k <;> rfl

theorem processReleases_nil [DecidableEq Name] [SemverVersion V]
    (a : AnalyzedDependencies Name V Vuln) : processReleases a [] = a := rfl

theorem processReleases_cons [DecidableEq Name] [SemverVersion V]
    (a : AnalyzedDependencies Name V Vuln) (r : CrateRelease Name V)
    (rs : List (CrateRelease Name V)) :
    processReleases a (r :: rs) =
      if r.yanked then processReleases a rs
      else processReleases (processRelease a r) rs := by
  by_cases hy : r.yanked <;> simp [processReleases, List.filter_cons, hy]

theorem relevantVersions_cons [DecidableEq Name] (nm : Name)
    (r : CrateRelease Name V) (rs : List (CrateRelease Name V)) :
    relevantVersions nm (r :: rs) =
      if r.yanked = false ∧ r.name = nm then r.version :: relevantVersions nm rs
      else relevantVersions nm rs := by
  by_cases hy : r.yanked <;> by_cases hn : r.name = nm <;>
    simp [relevantVersions, List.filter_cons, hy, hn]

theorem kindMap_processReleases [DecidableEq Name] [SemverVersion V]
    (rs : List (CrateRelease Name V)) :
    ∀ (a : AnalyzedDependencies Name V Vuln) (k : DependencyKind),
    kindMap k (processReleases a rs) =
      (kindMap k a).map
        (fun p => (p.1, (relevantVersions p.1 rs).foldl process_single p.2)) := by
  induction rs with
  | nil =>
    intro a k
    have h : ∀ nm : Name, relevantVersions nm ([] : List (CrateRelease Name V)) = [] :=
      fun nm => rfl
    simp [processReleases_nil, h]
  | cons r rs ih =>
    intro a k
    rw [processReleases_cons]
    cases hy : r.yanked with
    | true =>
      simp only [if_true]
      rw [ih a k]
      apply List.map_congr_left
      intro p _
      rw [relevantVersions_cons]
      simp [hy]
    | false =>
      simp only [if_false, Bool.false_eq_true]
      rw [ih (processRelease a r) k, kindMap_processRelease, updateAt,
        List.map_map]
      apply List.map_congr_left
      intro p _
      simp only [Function.comp]
      rw [relevantVersions_cons]
      by_cases hn : r.name = p.1
      · simp only [hy, hn, and_self, if_true]
        have hpn : p.1 = r.name := hn.symm
        simp [hpn, List.foldl_cons]
      · have hpn : ¬ p.1 = r.name := fun h => hn h.symm
        simp [hy, hn, hpn]

theorem alookup_processReleases [DecidableEq Name] [SemverVersion V]
    (rs : List (CrateRelease Name V))
    (a : AnalyzedDependencies Name V Vuln) (k : DependencyKind) (nm : Name) :
    alookup nm (kindMap k (processReleases a rs)) =
      (alookup nm (kindMap k a)).map
        (fun d => (relevantVersions nm rs).foldl process_single d) := by
  rw [kindMap_processReleases]
  exact alookup_map_entry
    (fun n d => (relevantVersions n rs).foldl process_single d) (kindMap k a) nm

theorem processReleases_append [DecidableEq Name] [SemverVersion V]
    (a : AnalyzedDependencies Name V Vuln)
    (rs₁ rs₂ : List (CrateRelease Name V)) :
    processReleases (processReleases a rs₁) rs₂ = processReleases a (rs₁ ++ rs₂) := by
  simp [processReleases, List.filter_append, List.foldl_append]

theorem processChunks_deps [DecidableEq Name] [SemverVersion V]
    (chunks : List (List (CrateRelease Name V))) :
    ∀ an : DependencyAnalyzer Name V LockName LockVersion Vuln,
    DependencyAnalyzer.processChunks an chunks =
      { an with deps := processReleases an.deps chunks.flatten } := by
  induction chunks with
  | nil =>
    intro an
    simp [DependencyAnalyzer.processChunks, processReleases_nil]
  | cons c cs ih =>
    intro an
    have h1 : DependencyAnalyzer.processChunks an (c :: cs) =
        DependencyAnalyzer.processChunks (DependencyAnalyzer.process an c) cs := rfl
    rw [h1, ih]
    simp [DependencyAnalyzer.process, processReleases_append]

theorem alookup_new [DecidableEq Name] (deps : CrateDeps Name V)
    (k : DependencyKind) (nm : Name) :
    alookup nm (kindMap k (AnalyzedDependencies.new deps : AnalyzedDependencies Name V Vuln)) =
      (alookup nm (kindDeps k deps)).map (fun c => AnalyzedDependency.new c) := by
  cases k <;>
    exact alookup_map_entry (fun _ c => AnalyzedDependency.new c) _ nm

end DepsRs

namespace DepsRs

/-! ## The advisory pass -/

theorem advisory_one_ltm_none
    (db : Option (LockName → LockVersion → List Vuln))
    (pn : Name → Option LockName) (pv : V → Option LockVersion)
    (nm : Name) (d : AnalyzedDependency V Vuln)
    (h : d.latest_that_matches = none) :
    advisory_one db pn pv nm d = some d := by
  simp [advisory_one, h]

theorem advisory_one_abort
    (db : Option (LockName → LockVersion → List Vuln))
    (pn : Name → Option LockName) (pv : V → Option LockVersion)
    (nm : Name) (d : AnalyzedDependency V Vuln) (v : V)
    (hv : d.latest_that_matches = some v)
    (h : pn nm = none ∨ pv v = none) :
    advisory_one db pn pv nm d = none := by
  rcases h with h | h
  · simp [advisory_one, hv, h]
  · cases hn : pn nm <;> simp [advisory_one, hv, hn, h]

theorem advisory_one_query
    (q : LockName → LockVersion → List Vuln)
    (pn : Name → Option LockName) (pv : V → Option LockVersion)
    (nm : Name) (d : AnalyzedDependency V Vuln) (v : V)
    (ln : LockName) (lv : LockVersion)
    (hv : d.latest_that_matches = some v)
    (hn : pn nm = some ln) (hl : pv v = some lv) :
    advisory_one (some q) pn pv nm d =
      some (if (q ln lv).isEmpty then d
        else { d with vulnerabilities := q ln lv }) := by
  simp [advisory_one, hv, hn, hl]

theorem advisory_one_db_none
    (pn : Name → Option LockName) (pv : V → Option LockVersion)
    (nm : Name) (d : AnalyzedDependency V Vuln)
    (hn : (pn nm).isSome)
    (hl : ∀ v, d.latest_that_matches = some v → (pv v).isSome) :
    advisory_one (none : Option (LockName → LockVersion → List Vuln)) pn pv nm d
      = some d := by
  cases hltm : d.latest_that_matches with
  | none => exact advisory_one_ltm_none _ pn pv nm d hltm
  | some v =>
    obtain ⟨ln, hln⟩ := Option.isSome_iff_exists.mp hn
    obtain ⟨lv, hlv⟩ := Option.isSome_iff_exists.mp (hl v hltm)
    simp [advisory_one, hltm, hln, hlv]

theorem advisory_one_isSome
    (db : Option (LockName → LockVersion → List Vuln))
    (pn : Name → Option LockName) (pv : V → Option LockVersion)
    (nm : Name) (d : AnalyzedDependency V Vuln)
    (hn : (pn nm).isSome)
    (hl : ∀ v, d.latest_that_matches = some v → (pv v).isSome) :
    (advisory_one db pn pv nm d).isSome := by
  cases hltm : d.latest_that_matches with
  | none => simp [advisory_one_ltm_none db pn pv nm d hltm]
  | some v =>
    obtain ⟨ln, hln⟩ := Option.isSome_iff_exists.mp hn
    obtain ⟨lv, hlv⟩ := Option.isSome_iff_exists.mp (hl v hltm)
    cases db with
    | none => simp [advisory_one, hltm, hln, hlv]
    | some q => simp [advisory_one_query q pn pv nm d v ln lv hltm hln hlv]

theorem advisory_one_fields
    {db : Option (LockName → LockVersion → List Vuln)}
    {pn : Name → Option LockName} {pv : V → Option LockVersion}
    {nm : Name} {d d' : AnalyzedDependency V Vuln}
    (h : advisory_one db pn pv nm d = some d') :
    d'.required = d.required ∧
    d'.latest_that_matches = d.latest_that_matches ∧
    d'.latest = d.latest := by
  cases hltm : d.latest_that_matches with
  | none =>
    rw [advisory_one_ltm_none db pn pv nm d hltm] at h
    injection h with h
    subst h
    exact ⟨rfl, hltm, rfl⟩
  | some v =>
    cases hn : pn nm with
    | none => rw [advisory_one_abort db pn pv nm d v hltm (Or.inl hn)] at h; cases h
    | some ln =>
      cases hl : pv v with
      | none => rw [advisory_one_abort db pn pv nm d v hltm (Or.inr hl)] at h; cases h
      | some lv =>
        cases db with
        | none =>
          simp only [advisory_one, hltm, hn, hl] at h
          injection h with h
          subst h
          exact ⟨rfl, hltm, rfl⟩
        | some q =>
          rw [advisory_one_query q pn pv nm d v ln lv hltm hn hl] at h
          injection h with h
          subst h
          by_cases he : (q ln lv).isEmpty <;> simp [he, hltm]

theorem alookup_advisory_map
    {db : Option (LockName → LockVersion → List Vuln)}
    {pn : Name → Option LockName} {pv : V → Option LockVersion}
    [DecidableEq Name] :
    ∀ {l l' : List (Name × AnalyzedDependency V Vuln)},
    advisory_map db pn pv l = some l' → ∀ nm,
    alookup nm l' = (alookup nm l).bind (advisory_one db pn pv nm) := by
  intro l
  induction l with
  | nil =>
    intro l' h nm
    simp only [advisory_map] at h
    injection h with h
    subst h
    rfl
  | cons p ps ih =>
    intro l' h nm
    simp only [advisory_map] at h
    cases h1 : advisory_one db pn pv p.1 p.2 with
    | none => rw [h1] at h; cases h
    | some d =>
      rw [h1] at h
      cases h2 : advisory_map db pn pv ps with
      | none => rw [h2] at h; cases h
      | some rest =>
        rw [h2] at h
        injection h with h
        subst h
        by_cases hnm : p.1 = nm
        · subst hnm
          simp only [alookup, if_pos rfl, Option.some_bind]
          exact h1.symm
        · simp only [alookup, if_neg hnm]
          exact ih h2 nm

theorem advisory_map_entry_isSome
    {db : Option (LockName → LockVersion → List Vuln)}
    {pn : Name → Option LockName} {pv : V → Option LockVersion} :
    ∀ {l l' : List (Name × AnalyzedDependency V Vuln)},
    advisory_map db pn pv l = some l' →
    ∀ p ∈ l, (advisory_one db pn pv p.1 p.2).isSome := by
  intro l
  induction l with
  | nil => intro l' _ p hp; cases hp
  | cons q ps ih =>
    intro l' h p hp
    simp only [advisory_map] at h
    cases h1 : advisory_one db pn pv q.1 q.2 with
    | none => rw [h1] at h; cases h
    | some d =>
      rw [h1] at h
      cases h2 : advisory_map db pn pv ps with
      | none => rw [h2] at h; cases h
      | some rest =>
        rcases List.mem_cons.mp hp with hq | hq
        · subst hq; simp [h1]
        · exact ih h2 p hq

theorem advisory_map_isSome
    {db : Option (LockName → LockVersion → List Vuln)}
    {pn : Name → Option LockName} {pv : V → Option LockVersion} :
    ∀ {l : List (Name × AnalyzedDependency V Vuln)},
    (∀ p ∈ l, (advisory_one db pn pv p.1 p.2).isSome) →
    (advisory_map db pn pv l).isSome := by
  intro l
  induction l with
  | nil => intro _; simp [advisory_map]
  | cons p ps ih =>
    intro h
    have hp := h p (List.mem_cons_self p ps)
    obtain ⟨d, hd⟩ := Option.isSome_iff_exists.mp hp
    have hps := ih (fun q hq => h q (List.mem_cons_of_mem p hq))
    obtain ⟨rest, hrest⟩ := Option.isSome_iff_exists.mp hps
    simp [advisory_map, hd, hrest]

theorem advisory_map_abort
    {db : Option (LockName → LockVersion → List Vuln)}
    {pn : Name → Option LockName} {pv : V → Option LockVersion} :
    ∀ {l : List (Name × AnalyzedDependency V Vuln)}
    {p : Name × AnalyzedDependency V Vuln}, p ∈ l →
    advisory_one db pn pv p.1 p.2 = none →
    advisory_map db pn pv l = none := by
  intro l
  induction l with
  | nil => intro p hp; cases hp
  | cons q ps ih =>
    intro p hp habort
    rcases List.mem_cons.mp hp with hq | hq
    · subst hq
      simp [advisory_map, habort]
    · cases h1 : advisory_one db pn pv q.1 q.2 with
      | none => simp [advisory_map, h1]
      | some d => simp [advisory_map, h1, ih hq habort]

theorem advisory_map_id
    {db : Option (LockName → LockVersion → List Vuln)}
    {pn : Name → Option LockName} {pv : V → Option LockVersion} :
    ∀ {l : List (Name × AnalyzedDependency V Vuln)},
    (∀ p ∈ l, advisory_one db pn pv p.1 p.2 = some p.2) →
    advisory_map db pn pv l = some l := by
  intro l
  induction l with
  | nil => intro _; rfl
  | cons p ps ih =>
    intro h
    have hp := h p (List.mem_cons_self p ps)
    have hps := ih (fun q hq => h q (List.mem_cons_of_mem p hq))
    simp [advisory_map, hp, hps]

theorem process_advisory_kind
    {pn : Name → Option LockName} {pv : V → Option LockVersion}
    {an an' : DependencyAnalyzer Name V LockName LockVersion Vuln}
    (h : DependencyAnalyzer.process_advisory pn pv an = some an')
    (k : DependencyKind) :
    advisory_map an.advisory_db pn pv (kindMap k an.deps)
      = some (kindMap k an'.deps) := by
  simp only [DependencyAnalyzer.process_advisory] at h
  cases h1 : advisory_map an.advisory_db pn pv an.deps.main with
  | none => rw [h1] at h; cases h
  | some m =>
    cases h2 : advisory_map an.advisory_db pn pv an.deps.dev with
    | none => rw [h1, h2] at h; cases h
    | some d =>
      cases h3 : advisory_map an.advisory_db pn pv an.deps.build with
      | none => rw [h1, h2, h3] at h; cases h
      | some b =>
        rw [h1, h2, h3] at h
        injection h with h
        subst h
        cases k <;> simpa [kindMap]

theorem process_advisory_none_of_kind
    {pn : Name → Option LockName} {pv : V → Option LockVersion}
    {an : DependencyAnalyzer Name V LockName LockVersion Vuln}
    (k : DependencyKind)
    (h : advisory_map an.advisory_db pn pv (kindMap k an.deps) = none) :
    DependencyAnalyzer.process_advisory pn pv an = none := by
  simp only [DependencyAnalyzer.process_advisory]
  cases k with
  | main =>
    rw [show kindMap DependencyKind.main an.deps = an.deps.main from rfl] at h
    rw [h]
  | dev =>
    rw [show kindMap DependencyKind.dev an.deps = an.deps.dev from rfl] at h
    rw [h]
    cases advisory_map an.advisory_db pn pv an.deps.main <;> rfl
  | build =>
    rw [show kindMap DependencyKind.build an.deps = an.deps.build from rfl] at h
    rw [h]
    cases advisory_map an.advisory_db pn pv an.deps.main <;>
      cases advisory_map an.advisory_db pn pv an.deps.dev <;> rfl

theorem process_advisory_isSome
    {pn : Name → Option LockName} {pv : V → Option LockVersion}
    {an : DependencyAnalyzer Name V LockName LockVersion Vuln}
    (h : ∀ k, (advisory_map an.advisory_db pn pv (kindMap k an.deps)).isSome) :
    (DependencyAnalyzer.process_advisory pn pv an).isSome := by
  obtain ⟨m, hm⟩ := Option.isSome_iff_exists.mp (h DependencyKind.main)
  obtain ⟨d, hd⟩ := Option.isSome_iff_exists.mp (h DependencyKind.dev)
  obtain ⟨b, hb⟩ := Option.isSome_iff_exists.mp (h DependencyKind.build)
  rw [show kindMap DependencyKind.main an.deps = an.deps.main from rfl] at hm
  rw [show kindMap DependencyKind.dev an.deps = an.deps.dev from rfl] at hd
  rw [show kindMap DependencyKind.build an.deps = an.deps.build from rfl] at hb
  simp [DependencyAnalyzer.process_advisory, hm, hd, hb]

end DepsRs

namespace DepsRs

theorem relevantVersions_filter [DecidableEq Name] (q : V → Bool) (nm : Name) :
    ∀ rs : List (CrateRelease Name V),
    (relevantVersions nm rs).filter q =
      ((rs.filter
        (fun r => !r.yanked && decide (r.name = nm) && q r.version)).map
        (fun r => r.version)) := by
  intro rs
  induction rs with
  | nil => rfl
  | cons r t ih =>
    rw [relevantVersions_cons]
    by_cases hy : r.yanked <;> by_cases hn : r.name = nm <;>
      by_cases hq : q r.version <;>
      simp [List.filter_cons, hy, hn, hq, ih]

theorem new_deps_eq (deps : CrateDeps Name V)
    (db : Option (LockName → LockVersion → List Vuln)) :
    (DependencyAnalyzer.new deps db :
      DependencyAnalyzer Name V LockName LockVersion Vuln).deps
      = AnalyzedDependencies.new deps := rfl

/-- Lookup of a tracked dependency after a chunked stream from a fresh
analyzer: the accumulator is the process_single fold of the relevant
versions over the fresh entry. -/
theorem alookup_processChunks_new [DecidableEq Name] [SemverVersion V]
    (deps : CrateDeps Name V)
    (db : Option (LockName → LockVersion → List Vuln))
    (chunks : List (List (CrateRelease Name V)))
    (k : DependencyKind) (nm : Name) :
    alookup nm (kindMap k
      ((DependencyAnalyzer.processChunks
        (DependencyAnalyzer.new deps db :
          DependencyAnalyzer Name V LockName LockVersion Vuln) chunks)).deps) =
      (alookup nm (kindDeps k deps)).map
        (fun c => (relevantVersions nm chunks.flatten).foldl process_single
          (AnalyzedDependency.new c : AnalyzedDependency V Vuln)) := by
  rw [processChunks_deps, new_deps_eq]
  rw [alookup_processReleases, alookup_new, Option.map_map]
  rfl

/-- C1: after any sequence of Ingest calls from a freshly constructed
analyzer, for every tracked dependency in every kind-mapping,
latest_that_matches equals the maximum version among all processed
non-yanked releases of that name whose version satisfies the tracked
constraint (none when there is no such release), and the value is
independent of the order of the releases and of the chunking of the
stream across calls. -/
theorem spec2proof_C1 [DecidableEq Name] [SemverVersion V]
    (deps : CrateDeps Name V)
    (db : Option (LockName → LockVersion → List Vuln))
    (chunks : List (List (CrateRelease Name V)))
    (k : DependencyKind) (nm : Name) (d : AnalyzedDependency V Vuln)
    (h : alookup nm (kindMap k
      ((DependencyAnalyzer.processChunks
        (DependencyAnalyzer.new deps db :
          DependencyAnalyzer Name V LockName LockVersion Vuln) chunks)).deps)
      = some d) :
    d.latest_that_matches =
      maxOf ((chunks.flatten.filter
        (fun r => !r.yanked && decide (r.name = nm)
          && d.required r.version)).map (fun r => r.version)) ∧
    ∀ chunks' : List (List (CrateRelease Name V)),
      chunks'.flatten.Perm chunks.flatten →
      ∃ d', alookup nm (kindMap k
          ((DependencyAnalyzer.processChunks
            (DependencyAnalyzer.new deps db :
              DependencyAnalyzer Name V LockName LockVersion Vuln)
            chunks')).deps) = some d' ∧
        d'.latest_that_matches = d.latest_that_matches := by
  rw [alookup_processChunks_new] at h
  cases hc : alookup nm (kindDeps k deps) with
  | none => rw [hc] at h; cases h
  | some c =>
    rw [hc] at h
    injection h with h
    have hreq : d.required = c := by
      rw [← h, foldl_process_single_required]
      rfl
    have hltm : d.latest_that_matches =
        maxOf ((relevantVersions nm chunks.flatten).filter c) := by
      rw [← h, foldl_process_single_ltm]
      rfl
    constructor
    · rw [hltm, hreq, relevantVersions_filter]
    · intro chunks' hperm
      refine ⟨(relevantVersions nm chunks'.flatten).foldl process_single
        (AnalyzedDependency.new c), ?_, ?_⟩
      · rw [alookup_processChunks_new, hc]
        rfl
      · rw [foldl_process_single_ltm, hltm]
        have hrel : (relevantVersions nm chunks'.flatten).Perm
            (relevantVersions nm chunks.flatten) :=
          (hperm.filter _).map _
        have hfil : ((relevantVersions nm chunks'.flatten).filter c).Perm
            ((relevantVersions nm chunks.flatten).filter c) :=
          hrel.filter c
        exact foldl_omax_perm hfil none

/-- C2: after any sequence of Ingest calls from a freshly constructed
analyzer, for every tracked dependency in every kind-mapping, latest
equals the maximum version among all processed non-yanked,
non-prerelease releases of that name, regardless of the constraint
(none when there is no such release); prereleases never influence it,
and the value is independent of order and chunking. -/
theorem spec2proof_C2 [DecidableEq Name] [SemverVersion V]
    (deps : CrateDeps Name V)
    (db : Option (LockName → LockVersion → List Vuln))
    (chunks : List (List (CrateRelease Name V)))
    (k : DependencyKind) (nm : Name) (d : AnalyzedDependency V Vuln)
    (h : alookup nm (kindMap k
      ((DependencyAnalyzer.processChunks
        (DependencyAnalyzer.new deps db :
          DependencyAnalyzer Name V LockName LockVersion Vuln) chunks)).deps)
      = some d) :
    d.latest =
      maxOf ((chunks.flatten.filter
        (fun r => !r.yanked && decide (r.name = nm)
          && !isPrerelease r.version)).map (fun r => r.version)) ∧
    ∀ chunks' : List (List (CrateRelease Name V)),
      chunks'.flatten.Perm chunks.flatten →
      ∃ d', alookup nm (kindMap k
          ((DependencyAnalyzer.processChunks
            (DependencyAnalyzer.new deps db :
              DependencyAnalyzer Name V LockName LockVersion Vuln)
            chunks')).deps) = some d' ∧
        d'.latest = d.latest := by
  rw [alookup_processChunks_new] at h
  cases hc : alookup nm (kindDeps k deps) with
  | none => rw [hc] at h; cases h
  | some c =>
    rw [hc] at h
    injection h with h
    have hlat : d.latest =
        maxOf ((relevantVersions nm chunks.flatten).filter
          (fun v => !isPrerelease v)) := by
      rw [← h, foldl_process_single_latest]
      rfl
    constructor
    · rw [hlat, relevantVersions_filter]
    · intro chunks' hperm
      refine ⟨(relevantVersions nm chunks'.flatten).foldl process_single
        (AnalyzedDependency.new c), ?_, ?_⟩
      · rw [alookup_processChunks_new, hc]
        rfl
      · rw [foldl_process_single_latest, hlat]
        have hrel : (relevantVersions nm chunks'.flatten).Perm
            (relevantVersions nm chunks.flatten) :=
          (hperm.filter _).map _
        exact foldl_omax_perm (hrel.filter (fun v => !isPrerelease v)) none

end DepsRs

namespace DepsRs

theorem alookup_mem [DecidableEq Name] :
    ∀ {l : List (Name × α)} {nm : Name} {d : α},
    alookup nm l = some d → (nm, d) ∈ l := by
  intro l
  induction l with
  | nil => intro nm d h; cases h
  | cons p ps ih =>
    intro nm d h
    by_cases hp : p.1 = nm
    · rw [alookup, if_pos hp] at h
      injection h with h
      subst h
      subst hp
      exact List.mem_cons_self _ _
    · rw [alookup, if_neg hp] at h
      exact List.mem_cons_of_mem p (ih h)

theorem finalize_inv
    {pn : Name → Option LockName} {pv : V → Option LockVersion}
    {an : DependencyAnalyzer Name V LockName LockVersion Vuln}
    {out : AnalyzedDependencies Name V Vuln}
    (h : DependencyAnalyzer.finalize pn pv an = some out) :
    ∃ an', DependencyAnalyzer.process_advisory pn pv an = some an' ∧
      out = an'.deps := by
  simp only [DependencyAnalyzer.finalize] at h
  cases hpa : DependencyAnalyzer.process_advisory pn pv an with
  | none => rw [hpa] at h; cases h
  | some an' =>
    rw [hpa] at h
    injection h with h
    exact ⟨an', rfl, h.symm⟩

/-- Lookup after a successful finalize: the entry is the advisory_one
image of the entry before, which in particular exists. -/
theorem alookup_finalize [DecidableEq Name]
    {pn : Name → Option LockName} {pv : V → Option LockVersion}
    {an : DependencyAnalyzer Name V LockName LockVersion Vuln}
    {out : AnalyzedDependencies Name V Vuln}
    (h : DependencyAnalyzer.finalize pn pv an = some out)
    (k : DependencyKind) (nm : Name) (d : AnalyzedDependency V Vuln)
    (hd : alookup nm (kindMap k an.deps) = some d) :
    ∃ d', advisory_one an.advisory_db pn pv nm d = some d' ∧
      alookup nm (kindMap k out) = some d' := by
  obtain ⟨an', hpa, hout⟩ := finalize_inv h
  have hmap := process_advisory_kind hpa k
  have hlk := alookup_advisory_map hmap nm
  rw [hd, Option.some_bind] at hlk
  have hmem := alookup_mem hd
  have hsome := advisory_map_entry_isSome hmap (nm, d) hmem
  obtain ⟨d', hd'⟩ := Option.isSome_iff_exists.mp hsome
  refine ⟨d', hd', ?_⟩
  rw [hout, hlk, hd']

/-- C4: for every tracked dependency, latest and latest_that_matches are
monotonically non-decreasing across any Ingest call — processing more
releases never decreases either field, a set field stays set — and a
subsequent finalize leaves both fields exactly as they were. -/
theorem spec2proof_C4 [DecidableEq Name] [SemverVersion V]
    (an : DependencyAnalyzer Name V LockName LockVersion Vuln)
    (rs : List (CrateRelease Name V))
    (k : DependencyKind) (nm : Name) (d : AnalyzedDependency V Vuln)
    (h : alookup nm (kindMap k an.deps) = some d) :
    ∃ d', alookup nm (kindMap k (an.process rs).deps) = some d' ∧
      (∀ x, d.latest = some x → ∃ y, d'.latest = some y ∧ x ≤ y) ∧
      (∀ x, d.latest_that_matches = some x →
        ∃ y, d'.latest_that_matches = some y ∧ x ≤ y) ∧
      (∀ (pn : Name → Option LockName) (pv : V → Option LockVersion) out,
        DependencyAnalyzer.finalize pn pv (an.process rs) = some out →
        ∃ d'', alookup nm (kindMap k out) = some d'' ∧
          d''.latest = d'.latest ∧
          d''.latest_that_matches = d'.latest_that_matches) := by
  have hproc : alookup nm (kindMap k (an.process rs).deps) =
      some ((relevantVersions nm rs).foldl process_single d) := by
    have he : (an.process rs).deps = processReleases an.deps rs := rfl
    rw [he, alookup_processReleases, h]
    rfl
  refine ⟨(relevantVersions nm rs).foldl process_single d, hproc, ?_, ?_, ?_⟩
  · intro x hx
    rw [foldl_process_single_latest, hx]
    obtain ⟨y, hy, hxy⟩ := foldl_omax_init
      ((relevantVersions nm rs).filter (fun v => !isPrerelease v)) x
    exact ⟨y, hy, hxy⟩
  · intro x hx
    rw [foldl_process_single_ltm, hx]
    obtain ⟨y, hy, hxy⟩ := foldl_omax_init
      ((relevantVersions nm rs).filter d.required) x
    exact ⟨y, hy, hxy⟩
  · intro pn pv out hfin
    obtain ⟨d'', hone, hlk⟩ := alookup_finalize hfin k nm _ hproc
    obtain ⟨_, hltm, hlat⟩ := advisory_one_fields hone
    exact ⟨d'', hlk, hlat, hltm⟩

/-- C5: Ingest is idempotent — processing the same release list twice
from any analyzer state yields exactly the state after processing it
once (every field of every tracked dependency unchanged). -/
theorem spec2proof_C5 [DecidableEq Name] [SemverVersion V]
    (an : DependencyAnalyzer Name V LockName LockVersion Vuln)
    (rs : List (CrateRelease Name V)) :
    (an.process rs).process rs = an.process rs := by
  have key : ∀ k, kindMap k (processReleases (processReleases an.deps rs) rs)
      = kindMap k (processReleases an.deps rs) := by
    intro k
    rw [kindMap_processReleases rs (processReleases an.deps rs) k,
      kindMap_processReleases rs an.deps k, List.map_map]
    apply List.map_congr_left
    intro p _
    simp only [Function.comp]
    rw [foldl_process_single_idem]
  have hdeps : processReleases (processReleases an.deps rs) rs
      = processReleases an.deps rs := by
    apply AnalyzedDependencies.ext
    · exact key DependencyKind.main
    · exact key DependencyKind.dev
    · exact key DependencyKind.build
  show ({ an with deps := processReleases an.deps rs } :
    DependencyAnalyzer Name V LockName LockVersion Vuln).process rs
      = an.process rs
  simp only [DependencyAnalyzer.process]
  rw [hdeps]

end DepsRs

namespace DepsRs

/-- C3: after a successful finalize, for a tracked dependency whose
latest_that_matches is set: with an advisory source whose query at that
exact (name, version) is non-empty, the vulnerabilities equal that
result; with no advisory source, or an empty query result, the entry is
unchanged (vulnerabilities remain as they were — empty stays empty).  A
dependency with latest_that_matches unset is untouched: the query (and
its construction) only ever uses latest_that_matches. -/
theorem spec2proof_C3 [DecidableEq Name]
    (pn : Name → Option LockName) (pv : V → Option LockVersion)
    (an : DependencyAnalyzer Name V LockName LockVersion Vuln)
    (out : AnalyzedDependencies Name V Vuln)
    (h : DependencyAnalyzer.finalize pn pv an = some out)
    (k : DependencyKind) (nm : Name) (d : AnalyzedDependency V Vuln)
    (hd : alookup nm (kindMap k an.deps) = some d) :
    ∃ d', alookup nm (kindMap k out) = some d' ∧
      (d.latest_that_matches = none → d' = d) ∧
      (∀ v, d.latest_that_matches = some v →
        (an.advisory_db = none → d' = d) ∧
        (∀ q ln lv, an.advisory_db = some q → pn nm = some ln →
          pv v = some lv →
          ((q ln lv = [] → d'.vulnerabilities = d.vulnerabilities) ∧
           (q ln lv ≠ [] → d'.vulnerabilities = q ln lv)))) := by
  obtain ⟨d', hone, hlk⟩ := alookup_finalize h k nm d hd
  refine ⟨d', hlk, ?_, ?_⟩
  · intro hltm
    rw [advisory_one_ltm_none an.advisory_db pn pv nm d hltm] at hone
    injection hone with hone
    exact hone.symm
  · intro v hltm
    cases hn : pn nm with
    | none =>
      rw [advisory_one_abort an.advisory_db pn pv nm d v hltm (Or.inl hn)]
        at hone
      cases hone
    | some ln0 =>
      cases hl : pv v with
      | none =>
        rw [advisory_one_abort an.advisory_db pn pv nm d v hltm (Or.inr hl)]
          at hone
        cases hone
      | some lv0 =>
        constructor
        · intro hdb
          rw [hdb] at hone
          simp only [advisory_one, hltm, hn, hl] at hone
          injection hone with hone
          exact hone.symm
        · intro q ln lv hdb hln hlv
          injection hln with hln
          injection hlv with hlv
          subst hln
          subst hlv
          rw [hdb] at hone
          rw [advisory_one_query q pn pv nm d v ln0 lv0 hltm hn hl] at hone
          injection hone with hone
          constructor
          · intro hq
            rw [← hone]
            simp [hq]
          · intro hq
            rw [← hone]
            have hne : (q ln0 lv0).isEmpty = false := by
              cases hqv : q ln0 lv0 with
              | nil => exact absurd hqv hq
              | cons a t => rfl
            simp [hne]

/-- C7: a malformed name or version for a dependency with
latest_that_matches set makes finalize abort (none — no error value, no
silent continuation); and when every tracked name and every accumulated
version parses, the abort branch is unreachable: finalize succeeds. -/
theorem spec2proof_C7 [DecidableEq Name]
    (pn : Name → Option LockName) (pv : V → Option LockVersion)
    (an : DependencyAnalyzer Name V LockName LockVersion Vuln) :
    ((∀ k, ∀ p ∈ kindMap k an.deps, (pn p.1).isSome ∧
        ∀ v, p.2.latest_that_matches = some v → (pv v).isSome) →
      (DependencyAnalyzer.finalize pn pv an).isSome) ∧
    (∀ k, ∀ p ∈ kindMap k an.deps, ∀ v,
      p.2.latest_that_matches = some v →
      (pn p.1 = none ∨ pv v = none) →
      DependencyAnalyzer.finalize pn pv an = none) := by
  constructor
  · intro hok
    have hpa : (DependencyAnalyzer.process_advisory pn pv an).isSome := by
      apply process_advisory_isSome
      intro k
      apply advisory_map_isSome
      intro p hp
      exact advisory_one_isSome an.advisory_db pn pv p.1 p.2
        (hok k p hp).1 (hok k p hp).2
    obtain ⟨an', han'⟩ := Option.isSome_iff_exists.mp hpa
    simp [DependencyAnalyzer.finalize, han']
  · intro k p hp v hv hbad
    have habort : advisory_one an.advisory_db pn pv p.1 p.2 = none :=
      advisory_one_abort an.advisory_db pn pv p.1 p.2 v hv hbad
    have hmap : advisory_map an.advisory_db pn pv (kindMap k an.deps)
        = none := advisory_map_abort hp habort
    have hpa := process_advisory_none_of_kind k hmap
    simp [DependencyAnalyzer.finalize, hpa]

/-- C9: the advisory-query construction happens before the presence of
an advisory source is checked — with no advisory source configured, a
malformed tracked name with latest_that_matches set still aborts
finalize; and with all parses succeeding, finalize with no advisory
source returns the accumulators unchanged (absence skips only the
query). -/
theorem spec2proof_C9 [DecidableEq Name]
    (pn : Name → Option LockName) (pv : V → Option LockVersion)
    (an : DependencyAnalyzer Name V LockName LockVersion Vuln)
    (hdb : an.advisory_db = none) :
    (∀ k, ∀ p ∈ kindMap k an.deps, ∀ v,
      p.2.latest_that_matches = some v → pn p.1 = none →
      DependencyAnalyzer.finalize pn pv an = none) ∧
    ((∀ k, ∀ p ∈ kindMap k an.deps, (pn p.1).isSome ∧
        ∀ v, p.2.latest_that_matches = some v → (pv v).isSome) →
      DependencyAnalyzer.finalize pn pv an = some an.deps) := by
  constructor
  · intro k p hp v hv hbadname
    have habort : advisory_one an.advisory_db pn pv p.1 p.2 = none :=
      advisory_one_abort an.advisory_db pn pv p.1 p.2 v hv (Or.inl hbadname)
    have hmap : advisory_map an.advisory_db pn pv (kindMap k an.deps)
        = none := advisory_map_abort hp habort
    have hpa := process_advisory_none_of_kind k hmap
    simp [DependencyAnalyzer.finalize, hpa]
  · intro hok
    have hid : ∀ k, advisory_map an.advisory_db pn pv (kindMap k an.deps)
        = some (kindMap k an.deps) := by
      intro k
      apply advisory_map_id
      intro p hp
      rw [hdb]
      exact advisory_one_db_none pn pv p.1 p.2 (hok k p hp).1 (hok k p hp).2
    have hm := hid DependencyKind.main
    have hd := hid DependencyKind.dev
    have hb := hid DependencyKind.build
    rw [show kindMap DependencyKind.main an.deps = an.deps.main from rfl] at hm
    rw [show kindMap DependencyKind.dev an.deps = an.deps.dev from rfl] at hd
    rw [show kindMap DependencyKind.build an.deps = an.deps.build from rfl] at hb
    simp [DependencyAnalyzer.finalize, DependencyAnalyzer.process_advisory,
      hm, hd, hb]

/-- C10: finalize modifies nothing but vulnerabilities — every tracked
name remains tracked with its required constraint, latest and
latest_that_matches unchanged, and untracked names remain untracked, in
every kind-mapping. -/
theorem spec2proof_C10 [DecidableEq Name]
    (pn : Name → Option LockName) (pv : V → Option LockVersion)
    (an : DependencyAnalyzer Name V LockName LockVersion Vuln)
    (out : AnalyzedDependencies Name V Vuln)
    (h : DependencyAnalyzer.finalize pn pv an = some out)
    (k : DependencyKind) (nm : Name) :
    (alookup nm (kindMap k an.deps) = none →
      alookup nm (kindMap k out) = none) ∧
    (∀ d, alookup nm (kindMap k an.deps) = some d →
      ∃ d', alookup nm (kindMap k out) = some d' ∧
        d'.required = d.required ∧ d'.latest = d.latest ∧
        d'.latest_that_matches = d.latest_that_matches) := by
  constructor
  · intro hnone
    obtain ⟨an', hpa, hout⟩ := finalize_inv h
    have hmap := process_advisory_kind hpa k
    have hlk := alookup_advisory_map hmap nm
    rw [hnone, Option.none_bind] at hlk
    rw [hout]
    exact hlk
  · intro d hd
    obtain ⟨d', hone, hlk⟩ := alookup_finalize h k nm d hd
    obtain ⟨hreq, hltm, hlat⟩ := advisory_one_fields hone
    exact ⟨d', hlk, hreq, hlat, hltm⟩

end DepsRs

namespace DepsRs

/-- C6: with the timer armed at time 0 and period T, and refresh
durations that fit within a period, refresh 0 starts immediately and
refresh k starts exactly at k * T, indefinitely; and unconditionally
(any durations) refreshes are strictly sequential — the next tick is
awaited only after the previous refresh completes, so refresh k + 1
never starts before refresh k ends. -/
theorem spec2proof_C6 (T : ℕ) (dur : ℕ → ℕ) (hdur : ∀ k, dur k ≤ T) :
    (∀ k, refreshStart T dur k = k * T) ∧
    (∀ (dur' : ℕ → ℕ) (k : ℕ),
      refreshEnd T dur' k ≤ refreshStart T dur' (k + 1)) := by
  constructor
  · intro k
    induction k with
    | zero => simp [refreshStart]
    | succ n ih =>
      rw [refreshStart, ih, tickComplete]
      have hle : n * T + dur n ≤ (n + 1) * T := by
        rw [Nat.succ_mul]
        exact Nat.add_le_add_left (hdur n) (n * T)
      exact max_eq_right hle
  · intro dur' k
    rw [refreshEnd, refreshStart, tickComplete]
    exact le_max_left _ _

/-- C8: a failed retrieve-or-update during a refresh is never surfaced:
refresh returns unit with the managed state untouched whatever the
outcome (failures indistinguishable from successes), and after any
number of loop iterations with any outcomes the published index handle
is still in place and readable. -/
theorem spec2proof_C8 {Index Err : Type} (m : ManagedIndex Index)
    (o : Except Err Unit) (e : Err) (outcomes : ℕ → Except Err Unit) :
    ManagedIndex.refresh m o = (m, ()) ∧
    ManagedIndex.refresh m (Except.error e)
      = ManagedIndex.refresh m (Except.ok () : Except Err Unit) ∧
    (∀ n, ManagedIndex.loopState m outcomes n = m) ∧
    (∀ n, (ManagedIndex.loopState m outcomes n).index = m.index) := by
  have hloop : ∀ n, ManagedIndex.loopState m outcomes n = m := by
    intro n
    induction n with
    | zero => rfl
    | succ n ih => rw [ManagedIndex.loopState, ih]; rfl
  exact ⟨rfl, rfl, hloop, fun n => by rw [hloop n]⟩

end DepsRs

namespace DepsRs

/-- Witness for C1: the fixture stream evaluated concretely — the
tracked dependency's latest_that_matches is 4, the maximum matching
non-yanked version (20 fails the constraint, 6 is yanked). -/
theorem spec2proof_C1_witness :
    alookup "hyper" (kindMap DependencyKind.main
      ((DependencyAnalyzer.processChunks
        (DependencyAnalyzer.new wDeps wDb) wChunks)).deps) = some wDep ∧
    wDep.latest_that_matches =
      maxOf ((wChunks.flatten.filter
        (fun r => !r.yanked && decide (r.name = "hyper")
          && wDep.required r.version)).map (fun r => r.version)) :=
  ⟨by rfl,
   (spec2proof_C1 wDeps wDb wChunks DependencyKind.main "hyper" wDep (by rfl)).1⟩

/-- Witness for C2: on the same fixture stream the tracked dependency's
latest is 20, the maximum non-yanked non-prerelease version (3 is a
prerelease in the witness model, 6 is yanked). -/
theorem spec2proof_C2_witness :
    alookup "hyper" (kindMap DependencyKind.main
      ((DependencyAnalyzer.processChunks
        (DependencyAnalyzer.new wDeps wDb) wChunks)).deps) = some wDep ∧
    wDep.latest =
      maxOf ((wChunks.flatten.filter
        (fun r => !r.yanked && decide (r.name = "hyper")
          && !isPrerelease r.version)).map (fun r => r.version)) :=
  ⟨by rfl,
   (spec2proof_C2 wDeps wDb wChunks DependencyKind.main "hyper" wDep (by rfl)).1⟩

/-- Witness for C3: finalizing the fixture analyzer with the one-advisory
database succeeds, and the theorem applies at the tracked entry. -/
theorem spec2proof_C3_witness :
    DependencyAnalyzer.finalize wParseName wParseVersion
      (wAnalyzer wDbSome) = some wOut ∧
    alookup "hyper" (kindMap DependencyKind.main (wAnalyzer wDbSome).deps)
      = some wDep ∧
    (∃ d', alookup "hyper" (kindMap DependencyKind.main wOut) = some d' ∧
      (wDep.latest_that_matches = none → d' = wDep) ∧
      (∀ v, wDep.latest_that_matches = some v →
        ((wAnalyzer wDbSome).advisory_db = none → d' = wDep) ∧
        (∀ q ln lv, (wAnalyzer wDbSome).advisory_db = some q →
          wParseName "hyper" = some ln → wParseVersion v = some lv →
          ((q ln lv = [] → d'.vulnerabilities = wDep.vulnerabilities) ∧
           (q ln lv ≠ [] → d'.vulnerabilities = q ln lv))))) :=
  ⟨rfl, rfl,
   spec2proof_C3 wParseName wParseVersion (wAnalyzer wDbSome) wOut rfl
     DependencyKind.main "hyper" wDep rfl⟩

/-- Witness for C4: processing one further release from the fixture
state preserves and never lowers both maxima, and finalize keeps them. -/
theorem spec2proof_C4_witness :
    alookup "hyper" (kindMap DependencyKind.main (wAnalyzer wDbSome).deps)
      = some wDep ∧
    (∃ d', alookup "hyper" (kindMap DependencyKind.main
        ((wAnalyzer wDbSome).process [wRel 8 false]).deps) = some d' ∧
      (∀ x, wDep.latest = some x → ∃ y, d'.latest = some y ∧ x ≤ y) ∧
      (∀ x, wDep.latest_that_matches = some x →
        ∃ y, d'.latest_that_matches = some y ∧ x ≤ y) ∧
      (∀ (pn : String → Option String) (pv : Nat → Option Nat) out,
        DependencyAnalyzer.finalize pn pv
          ((wAnalyzer wDbSome).process [wRel 8 false]) = some out →
        ∃ d'', alookup "hyper" (kindMap DependencyKind.main out) = some d'' ∧
          d''.latest = d'.latest ∧
          d''.latest_that_matches = d'.latest_that_matches)) :=
  ⟨rfl,
   spec2proof_C4 (wAnalyzer wDbSome) [wRel 8 false] DependencyKind.main
     "hyper" wDep rfl⟩

/-- Witness for C6: with period 2 and unit refresh durations, refresh 3
starts exactly at 3 * 2 and refresh 4 does not start before refresh 3
ends. -/
theorem spec2proof_C6_witness :
    (∀ k : ℕ, (fun _ : ℕ => 1) k ≤ 2) ∧
    refreshStart 2 (fun _ => 1) 3 = 3 * 2 ∧
    refreshEnd 2 (fun _ => 1) 3 ≤ refreshStart 2 (fun _ => 1) 4 :=
  ⟨fun _ => (by decide : (1 : ℕ) ≤ 2),
   (spec2proof_C6 2 (fun _ => 1) (fun _ => (by decide : (1 : ℕ) ≤ 2))).1 3,
   (spec2proof_C6 2 (fun _ => 1) (fun _ => (by decide : (1 : ℕ) ≤ 2))).2
     (fun _ => 1) 3⟩

/-- Witness for C7: with total parses finalize succeeds on the fixture
analyzer; with a failing name parse it aborts to none. -/
theorem spec2proof_C7_witness :
    (DependencyAnalyzer.finalize wParseName wParseVersion
      (wAnalyzer wDb)).isSome ∧
    DependencyAnalyzer.finalize wParseNameBad wParseVersion
      (wAnalyzer wDb) = none :=
  ⟨(spec2proof_C7 wParseName wParseVersion (wAnalyzer wDb)).1
     (fun _ _ _ => ⟨rfl, fun _ _ => rfl⟩),
   (spec2proof_C7 wParseNameBad wParseVersion (wAnalyzer wDb)).2
     DependencyKind.main ("hyper", wDep) (List.mem_cons_self _ _) 4 rfl
     (Or.inl rfl)⟩

/-- Witness for C9: with no advisory source the failing name parse still
aborts finalize, and with total parses finalize returns the accumulators
unchanged. -/
theorem spec2proof_C9_witness :
    DependencyAnalyzer.finalize wParseNameBad wParseVersion
      (wAnalyzer wDb) = none ∧
    DependencyAnalyzer.finalize wParseName wParseVersion
      (wAnalyzer wDb) = some (wAnalyzer wDb).deps :=
  ⟨(spec2proof_C9 wParseNameBad wParseVersion (wAnalyzer wDb) rfl).1
     DependencyKind.main ("hyper", wDep) (List.mem_cons_self _ _) 4 rfl rfl,
   (spec2proof_C9 wParseName wParseVersion (wAnalyzer wDb) rfl).2
     (fun _ _ _ => ⟨rfl, fun _ _ => rfl⟩)⟩

/-- Witness for C10: finalizing the fixture analyzer with the advisory
database, the tracked entry keeps constraint and both maxima. -/
theorem spec2proof_C10_witness :
    DependencyAnalyzer.finalize wParseName wParseVersion
      (wAnalyzer wDbSome) = some wOut ∧
    ((alookup "hyper" (kindMap DependencyKind.main (wAnalyzer wDbSome).deps)
        = none →
      alookup "hyper" (kindMap DependencyKind.main wOut) = none) ∧
    (∀ d, alookup "hyper" (kindMap DependencyKind.main (wAnalyzer wDbSome).deps)
        = some d →
      ∃ d', alookup "hyper" (kindMap DependencyKind.main wOut) = some d' ∧
        d'.required = d.required ∧ d'.latest = d.latest ∧
        d'.latest_that_matches = d.latest_that_matches)) :=
  ⟨rfl,
   spec2proof_C10 wParseName wParseVersion (wAnalyzer wDbSome) wOut rfl
     DependencyKind.main "hyper"⟩

end DepsRs
